import Mathlib

/-!
Verification of the cache/revalidation core of `react-async-comp`.

The development shallowly embeds the TypeScript source:
* `RacKey` — the key deriver `getKey`/`serialize` from `src/cache.ts`
  (lines 346-426);
* `RacListen` — the observer-list primitive from `src/listenable.ts`;
* `RacEntry` — one cache entry's closure state and its mutators
  (`create`, `setResult`, `set`, `remove`, `revalidate`, the auto-dispose
  timer hooks) from `src/cache.ts` (lines 47-285);
* `RacReg` — the two-level registry (`allCache`, `tryCreate`, `remove`)
  from `src/cache.ts` (lines 30-45, 76-97, 287-302).
-/

namespace RacKey

/-- JavaScript values as far as the key deriver distinguishes them.
`exotic` stands for any non-plain object (class instances, React
elements, ...), which `serialize` maps to the opaque sentinel.
Numbers are modelled as integers plus a separate NaN point; `obj`
models a plain JS object as its insertion-ordered own-property list
(JS object keys are unique, so theorems carry `Nodup` hypotheses where
duplicate keys would change behaviour). -/
inductive JVal where
  | undef
  | null
  | nan
  | bool (b : Bool)
  | num (n : Int)
  | str (s : String)
  | date (t : Int)
  | regex (r : String)
  | arr (elems : List JVal)
  | obj (fields : List (String × JVal))
  | exotic (id : Nat)

/-- `isNil` from cache.ts l.346-352: null, undefined, or NaN. -/
def isNilJ : JVal → Bool
  | .null => true
  | .undef => true
  | .nan => true
  | _ => false

/-- One character of `JSON.stringify` string escaping (quote and
backslash; the control-character escapes do not occur in our scope). -/
def escapeChar (c : Char) : String :=
  if c = '\"' then "\\\"" else if c = '\\' then "\\\\" else String.singleton c

/-- `JSON.stringify` of a string. -/
def jsonQuote (s : String) : String :=
  "\"" ++ String.join (s.toList.map escapeChar) ++ "\""

/-- The per-field data `serialize`'s record branch consumes: the key,
whether the value is nil-like, and the value's serialization. -/
structure Field where
  key : String
  nilv : Bool
  out : String
deriving DecidableEq, Repr

/-- `value[key]` lookup over the computed fields. -/
def lookupField (entries : List Field) (k : String) : Option Field :=
  entries.find? (fun f => f.key == k)

/-- `isNil(value[key])` (a key absent from the object reads as
`undefined`, hence nil). -/
def fieldNil (entries : List Field) (k : String) : Bool :=
  match lookupField entries k with
  | some f => f.nilv
  | none => true

/-- Lexicographic comparison of character sequences by code point,
matching the default `Array.prototype.sort()` string comparison. -/
def lexLe : List Char → List Char → Bool
  | [], _ => true
  | _ :: _, [] => false
  | a :: as, b :: bs => if a = b then lexLe as bs else decide (a < b)

/-- String comparison used by `.sort()` on the key list. -/
def strLeB (a b : String) : Bool := lexLe a.toList b.toList

/-- The sort relation as a proposition. -/
def rle (a b : String) : Prop := strLeB a b = true

instance rleDecidable : DecidableRel rle := fun a b => Bool.decEq (strLeB a b) true

/-- `Array.prototype.sort()` on the key list (lexicographic). -/
def sortKeys (ks : List String) : List String :=
  List.insertionSort rle ks

/-- The record branch of `serialize` (cache.ts l.393-411): filter the
keys whose value is nil, sort them, emit `"key":value` pairs skipping
values that serialized to the empty string, and brace-wrap — or return
the empty string when no pair survives. -/
def objOut (entries : List Field) : String :=
  let sortedKeys := sortKeys ((entries.map Field.key).filter (fun k => !(fieldNil entries k)))
  let pairs := sortedKeys.filterMap (fun k =>
    match lookupField entries k with
    | some f => if f.out = "" then none else some (jsonQuote k ++ ":" ++ f.out)
    | none => none)
  if pairs = [] then "" else "\x7b" ++ String.intercalate "," pairs ++ "\x7d"

mutual

/-- `serialize` from cache.ts l.367-417. Falsy primitives take the
sentinel branch (`#U`, `#N`, `#E`) or stringify (`0`, `NaN`, `false`);
dates/regexes get tagged forms; arrays join their elements with commas;
plain objects go through the filtered-sorted record branch; any other
object is the opaque sentinel `#I`; remaining primitives JSON-stringify. -/
def serialize : JVal → String
  | .undef => "#U"
  | .null => "#N"
  | .nan => "NaN"
  | .bool b => if b then "true" else "false"
  | .num n => toString n
  | .str s => if s = "" then "#E" else jsonQuote s
  | .date t => "D:" ++ toString t
  | .regex r => "R:" ++ r
  | .arr elems => String.intercalate "," (serializeList elems)
  | .obj fields => objOut (serializeFields fields)
  | .exotic _ => "#I"
termination_by structural v => v

/-- `value.map(serialize)` for the array branch. -/
def serializeList : List JVal → List String
  | [] => []
  | v :: vs => serialize v :: serializeList vs
termination_by structural vs => vs

/-- Field data for the record branch: each own property's key, nilness,
and serialized value. -/
def serializeFields : List (String × JVal) → List Field
  | [] => []
  | (k, v) :: fs => ⟨k, isNilJ v, serialize v⟩ :: serializeFields fs
termination_by structural fs => fs

end

/-- `getKey` from cache.ts l.356-426: an `undefined` argument defaults
to `\x7b\x7d`; the `WeakMap` memoization only short-circuits
recomputation and never changes the output, so the model is the
serialization itself. -/
def getKey : JVal → String
  | .undef => serialize (.obj [])
  | v => serialize v

theorem lexLe_total (as bs : List Char) : lexLe as bs = true ∨ lexLe bs as = true := by
  induction as generalizing bs with
  | nil => left; rfl
  | cons a as ih =>
    cases bs with
    | nil => right; rfl
    | cons b bs =>
      by_cases hab : a = b
      · subst hab
        rcases ih bs with h | h
        · left; simpa [lexLe] using h
        · right; simpa [lexLe] using h
      · rcases lt_trichotomy a b with h | h | h
        · left; simp [lexLe, hab, h]
        · exact absurd h hab
        · right
          have hba : b ≠ a := fun hc => hab hc.symm
          simp [lexLe, hba, h]

theorem lexLe_antisymm {as bs : List Char} (h1 : lexLe as bs = true)
    (h2 : lexLe bs as = true) : as = bs := by
  induction as generalizing bs with
  | nil =>
    cases bs with
    | nil => rfl
    | cons b bs => simp [lexLe] at h2
  | cons a as ih =>
    cases bs with
    | nil => simp [lexLe] at h1
    | cons b bs =>
      by_cases hab : a = b
      · subst hab
        simp only [lexLe, if_pos rfl] at h1 h2
        exact congrArg _ (ih h1 h2)
      · have hba : b ≠ a := fun hc => hab hc.symm
        simp only [lexLe, if_neg hab, decide_eq_true_eq] at h1
        simp only [lexLe, if_neg hba, decide_eq_true_eq] at h2
        exact absurd h2 (lt_asymm h1)

theorem lexLe_trans {as bs cs : List Char} (h1 : lexLe as bs = true)
    (h2 : lexLe bs cs = true) : lexLe as cs = true := by
  induction as generalizing bs cs with
  | nil => rfl
  | cons a as ih =>
    cases bs with
    | nil => simp [lexLe] at h1
    | cons b bs =>
      cases cs with
      | nil => simp [lexLe] at h2
      | cons c cs =>
        by_cases hab : a = b
        · subst hab
          simp only [lexLe, if_pos rfl] at h1
          by_cases hbc : a = c
          · subst hbc
            simp only [lexLe, if_pos rfl] at h2 ⊢
            exact ih h1 h2
          · simp only [lexLe, if_neg hbc] at h2 ⊢
            exact h2
        · simp only [lexLe, if_neg hab, decide_eq_true_eq] at h1
          by_cases hbc : b = c
          · subst hbc
            simp [lexLe, hab, h1]
          · simp only [lexLe, if_neg hbc, decide_eq_true_eq] at h2
            have hac : a < c := lt_trans h1 h2
            simp [lexLe, ne_of_lt hac, hac]

theorem string_toList_inj {a b : String} (h : a.toList = b.toList) : a = b := by
  cases a; cases b
  simpa [String.toList] using congrArg String.mk h

instance rleIsTotal : IsTotal String rle :=
  ⟨fun a b => lexLe_total a.toList b.toList⟩

instance rleIsTrans : IsTrans String rle :=
  ⟨fun _ _ _ h1 h2 => lexLe_trans h1 h2⟩

instance rleIsAntisymm : IsAntisymm String rle :=
  ⟨fun _ _ h1 h2 => string_toList_inj (lexLe_antisymm h1 h2)⟩

theorem sortKeys_eq_insertionSort (ks : List String) :
    sortKeys ks = List.insertionSort rle ks := rfl

theorem sortKeys_perm (ks : List String) : List.Perm (sortKeys ks) ks :=
  List.perm_insertionSort rle ks

theorem sortKeys_sorted (ks : List String) : List.Sorted rle (sortKeys ks) :=
  List.sorted_insertionSort rle ks

theorem sortKeys_eq_of_perm {ks₁ ks₂ : List String} (h : List.Perm ks₁ ks₂) :
    sortKeys ks₁ = sortKeys ks₂ :=
  List.eq_of_perm_of_sorted
    (((sortKeys_perm ks₁).trans h).trans (sortKeys_perm ks₂).symm)
    (sortKeys_sorted ks₁) (sortKeys_sorted ks₂)

example : serialize (.obj [("a", .num 1), ("b", .num 2)]) = "\x7b\"a\":1,\"b\":2\x7d" := by decide
example : serialize (.obj [("b", .num 2), ("a", .num 1)]) = "\x7b\"a\":1,\"b\":2\x7d" := by decide
example : serialize (.obj [("a", .undef)]) = "" := by decide
example : serialize (.arr []) = "" := by decide
example : serialize (.arr [.null]) = "#N" := by decide
example : getKey (.undef) = "" := by decide

/-- The field record for one key-value pair. -/
def mkField (p : String × JVal) : Field := ⟨p.1, isNilJ p.2, serialize p.2⟩

theorem serializeFields_eq_map (fs : List (String × JVal)) :
    serializeFields fs = fs.map mkField := by
  induction fs with
  | nil => rfl
  | cons p fs ih => cases p; simp [serializeFields, mkField, ih]

theorem serializeList_eq_map (vs : List JVal) :
    serializeList vs = vs.map serialize := by
  induction vs with
  | nil => rfl
  | cons v vs ih => simp [serializeList, ih]

theorem fields_key_map (fs : List (String × JVal)) :
    (serializeFields fs).map Field.key = fs.map Prod.fst := by
  induction fs with
  | nil => rfl
  | cons p fs ih => cases p; simp [serializeFields, ih]

theorem lookupField_cons (e : Field) (es : List Field) (k : String) :
    lookupField (e :: es) k = if e.key = k then some e else lookupField es k := by
  simp only [lookupField, List.find?]
  by_cases h : e.key = k
  · simp [h]
  · simp [h, beq_eq_false_iff_ne.mpr h]

theorem lookupField_perm {es₁ es₂ : List Field} (h : List.Perm es₁ es₂)
    (hnd : (es₁.map Field.key).Nodup) (k : String) :
    lookupField es₁ k = lookupField es₂ k := by
  induction h with
  | nil => rfl
  | cons x h ih =>
    simp only [List.map_cons, List.nodup_cons] at hnd
    rw [lookupField_cons, lookupField_cons, ih hnd.2]
  | swap x y l =>
    simp only [List.map_cons, List.nodup_cons, List.mem_cons] at hnd
    have hxy : y.key ≠ x.key := fun hc => hnd.1 (Or.inl hc)
    rw [lookupField_cons, lookupField_cons, lookupField_cons, lookupField_cons]
    by_cases hy : y.key = k
    · have hx : ¬x.key = k := fun hc => hxy (hy.trans hc.symm)
      simp [hy, hx]
    · by_cases hx : x.key = k <;> simp [hy, hx]
  | trans h₁ h₂ ih₁ ih₂ =>
    have hnd₂ := (h₁.map Field.key).nodup_iff.mp hnd
    exact (ih₁ hnd).trans (ih₂ hnd₂)

theorem fieldNil_congr {es₁ es₂ : List Field}
    (h : ∀ k, lookupField es₁ k = lookupField es₂ k) (k : String) :
    fieldNil es₁ k = fieldNil es₂ k := by
  simp [fieldNil, h k]

theorem objOut_congr_of_lookup {es₁ es₂ : List Field}
    (hlk : ∀ k, lookupField es₁ k = lookupField es₂ k)
    (hkeys : List.Perm (es₁.map Field.key) (es₂.map Field.key)) :
    objOut es₁ = objOut es₂ := by
  have hfn : ∀ k, fieldNil es₁ k = fieldNil es₂ k := fieldNil_congr hlk
  have hfiltperm : List.Perm
      ((es₁.map Field.key).filter (fun k => !(fieldNil es₁ k)))
      ((es₂.map Field.key).filter (fun k => !(fieldNil es₂ k))) := by
    have hp := hkeys.filter (fun k => !(fieldNil es₁ k))
    have heq : (es₂.map Field.key).filter (fun k => !(fieldNil es₁ k)) =
        (es₂.map Field.key).filter (fun k => !(fieldNil es₂ k)) :=
      List.filter_congr (fun x _ => by rw [hfn x])
    exact heq ▸ hp
  simp only [objOut]
  rw [sortKeys_eq_of_perm hfiltperm,
    List.filterMap_congr (fun k _ => by rw [hlk k])]

theorem objOut_perm {es₁ es₂ : List Field} (h : List.Perm es₁ es₂)
    (hnd : (es₁.map Field.key).Nodup) : objOut es₁ = objOut es₂ :=
  objOut_congr_of_lookup (lookupField_perm h hnd) (h.map Field.key)

theorem objOut_dropNil {e : Field} {es : List Field} (hnil : e.nilv = true)
    (hnd : ((e :: es).map Field.key).Nodup) : objOut (e :: es) = objOut es := by
  simp only [List.map_cons, List.nodup_cons] at hnd
  have hlk : ∀ k, k ≠ e.key → lookupField (e :: es) k = lookupField es k := by
    intro k hk
    rw [lookupField_cons, if_neg (fun hc => hk hc.symm)]
  have hfilter :
      ((e :: es).map Field.key).filter (fun k => !(fieldNil (e :: es) k)) =
      (es.map Field.key).filter (fun k => !(fieldNil es k)) := by
    rw [List.map_cons, List.filter_cons]
    have h₀ : fieldNil (e :: es) e.key = true := by
      simp [fieldNil, lookupField_cons, hnil]
    rw [if_neg (by simp [h₀])]
    refine List.filter_congr (fun k hk => ?_)
    have hke : k ≠ e.key := fun hc => hnd.1 (hc ▸ hk)
    simp [fieldNil, hlk k hke]
  simp only [objOut]
  rw [hfilter]
  have hfm : (sortKeys ((es.map Field.key).filter (fun k => !(fieldNil es k)))).filterMap
      (fun k => match lookupField (e :: es) k with
        | some f => if f.out = "" then none else some (jsonQuote k ++ ":" ++ f.out)
        | none => none) =
      (sortKeys ((es.map Field.key).filter (fun k => !(fieldNil es k)))).filterMap
      (fun k => match lookupField es k with
        | some f => if f.out = "" then none else some (jsonQuote k ++ ":" ++ f.out)
        | none => none) := by
    refine List.filterMap_congr (fun k hk => ?_)
    have hkmem : k ∈ es.map Field.key :=
      List.mem_of_mem_filter ((sortKeys_perm _).mem_iff.mp hk)
    have hke : k ≠ e.key := fun hc => hnd.1 (hc ▸ hkmem)
    rw [hlk k hke]
  rw [hfm]

/-- Structural equality of inputs, as the spec uses the phrase: identical
values, elementwise-equivalent sequences, records up to key reordering
(JS object keys are unique, hence the `Nodup` side conditions),
pointwise-equivalent record values, and insensitivity to keys bound to a
nil-like value (`undefined`/`null`/`NaN`), closed under symmetry and
transitivity. -/
inductive structEq : JVal → JVal → Prop where
  | refl (v : JVal) : structEq v v
  | symm {a b : JVal} : structEq a b → structEq b a
  | trans {a b c : JVal} : structEq a b → structEq b c → structEq a c
  | arrCongr {xs ys : List JVal} (hlen : xs.length = ys.length)
      (helem : ∀ i (h1 : i < xs.length) (h2 : i < ys.length),
        structEq (xs.get ⟨i, h1⟩) (ys.get ⟨i, h2⟩)) :
      structEq (.arr xs) (.arr ys)
  | objCongr {fs gs : List (String × JVal)} (hlen : fs.length = gs.length)
      (hkey : ∀ i (h1 : i < fs.length) (h2 : i < gs.length),
        (fs.get ⟨i, h1⟩).1 = (gs.get ⟨i, h2⟩).1)
      (hval : ∀ i (h1 : i < fs.length) (h2 : i < gs.length),
        structEq (fs.get ⟨i, h1⟩).2 (gs.get ⟨i, h2⟩).2) :
      structEq (.obj fs) (.obj gs)
  | objPerm {fs gs : List (String × JVal)} (hperm : List.Perm fs gs)
      (hnd : (fs.map Prod.fst).Nodup) :
      structEq (.obj fs) (.obj gs)
  | objDropNil {k : String} {v : JVal} {fs : List (String × JVal)}
      (hnil : isNilJ v = true) (hnd : (((k, v) :: fs).map Prod.fst).Nodup) :
      structEq (.obj ((k, v) :: fs)) (.obj fs)

theorem structEq_isNil {a b : JVal} (h : structEq a b) : isNilJ a = isNilJ b := by
  induction h with
  | refl v => rfl
  | symm h ih => exact ih.symm
  | trans h1 h2 ih1 ih2 => exact ih1.trans ih2
  | arrCongr hlen helem ih => rfl
  | objCongr hlen hkey hval ih => rfl
  | objPerm hperm hnd => rfl
  | objDropNil hnil hnd => rfl

theorem structEq_undef {a b : JVal} (h : structEq a b) :
    a = JVal.undef ↔ b = JVal.undef := by
  induction h with
  | refl v => exact Iff.rfl
  | symm h ih => exact ih.symm
  | trans h1 h2 ih1 ih2 => exact ih1.trans ih2
  | arrCongr hlen helem ih => simp
  | objCongr hlen hkey hval ih => simp
  | objPerm hperm hnd => simp
  | objDropNil hnil hnd => simp

theorem serializeList_congr {xs ys : List JVal} (hlen : xs.length = ys.length)
    (hout : ∀ i (h1 : i < xs.length) (h2 : i < ys.length),
      serialize (xs.get ⟨i, h1⟩) = serialize (ys.get ⟨i, h2⟩)) :
    serializeList xs = serializeList ys := by
  induction xs generalizing ys with
  | nil => cases ys with
    | nil => rfl
    | cons y ys => simp at hlen
  | cons x xs ih =>
    cases ys with
    | nil => simp at hlen
    | cons y ys =>
      simp only [List.length_cons, Nat.succ.injEq] at hlen
      have h0 := hout 0 (Nat.succ_pos _) (Nat.succ_pos _)
      simp only [List.get] at h0
      have htl := ih hlen (fun i h1 h2 =>
        hout (i + 1) (Nat.succ_lt_succ h1) (Nat.succ_lt_succ h2))
      simp [serializeList, h0, htl]

theorem serializeFields_congr {fs gs : List (String × JVal)}
    (hlen : fs.length = gs.length)
    (hkey : ∀ i (h1 : i < fs.length) (h2 : i < gs.length),
      (fs.get ⟨i, h1⟩).1 = (gs.get ⟨i, h2⟩).1)
    (hnil : ∀ i (h1 : i < fs.length) (h2 : i < gs.length),
      isNilJ (fs.get ⟨i, h1⟩).2 = isNilJ (gs.get ⟨i, h2⟩).2)
    (hout : ∀ i (h1 : i < fs.length) (h2 : i < gs.length),
      serialize (fs.get ⟨i, h1⟩).2 = serialize (gs.get ⟨i, h2⟩).2) :
    serializeFields fs = serializeFields gs := by
  induction fs generalizing gs with
  | nil => cases gs with
    | nil => rfl
    | cons g gs => simp at hlen
  | cons f fs ih =>
    cases gs with
    | nil => simp at hlen
    | cons g gs =>
      simp only [List.length_cons, Nat.succ.injEq] at hlen
      have hk0 := hkey 0 (Nat.succ_pos _) (Nat.succ_pos _)
      have hn0 := hnil 0 (Nat.succ_pos _) (Nat.succ_pos _)
      have ho0 := hout 0 (Nat.succ_pos _) (Nat.succ_pos _)
      simp only [List.get] at hk0 hn0 ho0
      have htl := ih hlen
        (fun i h1 h2 => hkey (i + 1) (Nat.succ_lt_succ h1) (Nat.succ_lt_succ h2))
        (fun i h1 h2 => hnil (i + 1) (Nat.succ_lt_succ h1) (Nat.succ_lt_succ h2))
        (fun i h1 h2 => hout (i + 1) (Nat.succ_lt_succ h1) (Nat.succ_lt_succ h2))
      cases f; cases g
      simp only [serializeFields, htl]
      simp_all

theorem serialize_respects_structEq {a b : JVal} (h : structEq a b) :
    serialize a = serialize b := by
  induction h with
  | refl v => rfl
  | symm h ih => exact ih.symm
  | trans h1 h2 ih1 ih2 => exact ih1.trans ih2
  | arrCongr hlen helem ih =>
    simp only [serialize]
    rw [serializeList_congr hlen ih]
  | objCongr hlen hkey hval ih =>
    simp only [serialize]
    rw [serializeFields_congr hlen hkey
      (fun i h1 h2 => structEq_isNil (hval i h1 h2)) ih]
  | objPerm hperm hnd =>
    simp only [serialize]
    refine objOut_perm ?_ ?_
    · rw [serializeFields_eq_map, serializeFields_eq_map]
      exact hperm.map mkField
    · rw [fields_key_map]; exact hnd
  | objDropNil hnil hnd =>
    simp only [serialize, serializeFields]
    refine objOut_dropNil hnil ?_
    rw [List.map_cons, fields_key_map]
    simpa using hnd

theorem getKey_eq_serialize {v : JVal} (h : v ≠ JVal.undef) : getKey v = serialize v := by
  cases v with
  | undef => exact absurd rfl h
  | _ => rfl

/-- Claim C6: for every two structurally-equal inputs — including nested
records whose keys appear in different orders, and treating a key
explicitly bound to `undefined` the same as an absent key — the key
deriver produces identical strings. -/
theorem claim6_deriveKey_deterministic {a b : JVal} (h : structEq a b) :
    getKey a = getKey b := by
  by_cases ha : a = JVal.undef
  · have hb : b = JVal.undef := (structEq_undef h).mp ha
    rw [ha, hb]
  · have hb : b ≠ JVal.undef := fun hc => ha ((structEq_undef h).mpr hc)
    rw [getKey_eq_serialize ha, getKey_eq_serialize hb]
    exact serialize_respects_structEq h

/-- Concrete instances of C6: `deriveKey(\x7ba:1,b:2\x7d)` equals
`deriveKey(\x7bb:2,a:1\x7d)`, and `deriveKey(\x7ba:undefined\x7d)` equals
`deriveKey(\x7b\x7d)`. -/
theorem claim6_witness :
    getKey (.obj [("a", .num 1), ("b", .num 2)]) =
      getKey (.obj [("b", .num 2), ("a", .num 1)]) ∧
    getKey (.obj [("a", .undef)]) = getKey (.obj []) :=
  ⟨claim6_deriveKey_deterministic
      (structEq.objPerm (List.Perm.swap ("b", JVal.num 2) ("a", JVal.num 1) []) (by decide)),
    claim6_deriveKey_deterministic
      (structEq.objDropNil (by decide) (by decide))⟩

theorem fieldNil_of_all_nil {es : List Field} (h : ∀ e ∈ es, e.nilv = true)
    (k : String) : fieldNil es k = true := by
  unfold fieldNil
  cases hf : lookupField es k with
  | none => rfl
  | some f => exact h f (List.mem_of_find?_eq_some hf)

/-- Claim C10: the key deriver is not injective — the empty array, the
empty record, and any record whose values are all nil-like derive the
empty string; a singleton sequence derives the same key as its sole
element, e.g. `null` and `[null]` both derive `#N` — while the inputs
themselves are distinct values. -/
theorem claim10_key_not_injective :
    getKey (.arr []) = "" ∧ getKey (.obj []) = "" ∧
    (∀ fs : List (String × JVal), (∀ p ∈ fs, isNilJ p.2 = true) →
      getKey (.obj fs) = "") ∧
    (∀ v : JVal, serialize (.arr [v]) = serialize v) ∧
    getKey (.arr [.null]) = "#N" ∧ getKey (.null) = "#N" ∧
    JVal.arr [] ≠ JVal.obj [] ∧ JVal.arr [.null] ≠ JVal.null := by
  refine ⟨rfl, rfl, ?_, ?_, rfl, rfl, fun h => JVal.noConfusion h,
    fun h => JVal.noConfusion h⟩
  · intro fs hnil
    have hents : ∀ e ∈ serializeFields fs, e.nilv = true := by
      intro e he
      rw [serializeFields_eq_map] at he
      obtain ⟨p, hp, hpe⟩ := List.mem_map.mp he
      rw [← hpe]
      exact hnil p hp
    show objOut (serializeFields fs) = ""
    simp only [objOut]
    have hfilter : ((serializeFields fs).map Field.key).filter
        (fun k => !(fieldNil (serializeFields fs) k)) = [] := by
      refine List.filter_eq_nil_iff.mpr (fun k _ => ?_)
      simp [fieldNil_of_all_nil hents k]
    rw [hfilter]
    rfl
  · intro v
    simp [serialize, serializeList, String.intercalate, String.intercalate.go]

/-- Concrete instance of the nil-valued-record conjunct of C10:
`\x7ba: null\x7d` derives the empty key. -/
theorem claim10_witness :
    getKey (.obj [("a", .null)]) = "" ∧
    serialize (.arr [.num 7]) = serialize (.num 7) :=
  ⟨claim10_key_not_injective.2.2.1 [("a", .null)] (by decide),
    claim10_key_not_injective.2.2.2.1 (.num 7)⟩

end RacKey

namespace RacListen

/-!
Model of `createListenable` (listenable.ts). The listener set is a JS
`Set`: a duplicate-free list in insertion order. A listener is named by a
`Nat` id; what a listener's callback does to the listener set itself is
given by a static action per id (`noop`, delete some id, add some id) —
the payload argument plays no role in the claims. -/

/-- What one listener's callback does to the listener set. -/
inductive LAct where
  | noop
  | unsub (target : Nat)
  | sub (fresh : Nat)
deriving DecidableEq, Repr

/-- Run one listener's effect on the live set: `unsubscribe` deletes the
target (a second call is the inert no-op), `subscribe` appends the id if
absent (`Set.add` keeps the original position of a present element). -/
def applyAct (beh : Nat → LAct) (st : List Nat) (id : Nat) : List Nat :=
  match beh id with
  | .noop => st
  | .unsub t => st.erase t
  | .sub n => if n ∈ st then st else st ++ [n]

/-- The first element of the live set not yet visited by the iteration. -/
def nextUnvisited (st visited : List Nat) : Option Nat :=
  st.find? (fun id => !(visited.contains id))

/-- `listeners.forEach(listener => listener(args))` — JS `Set.forEach`
iterates the LIVE set in insertion order: an element deleted before
being visited is skipped, an element added during iteration is visited.
(The delete-then-readd-of-a-visited-element corner is not exercised.)
`fuel` bounds the iteration; scenarios supply a sufficient amount. -/
def notifyGo (beh : Nat → LAct) :
    Nat → List Nat → List Nat → List Nat → (List Nat × List Nat)
  | 0, st, _, fired => (st, fired)
  | fuel + 1, st, visited, fired =>
    match nextUnvisited st visited with
    | none => (st, fired)
    | some id => notifyGo beh fuel (applyAct beh st id) (visited ++ [id]) (fired ++ [id])

/-- `notify(args)` from listenable.ts l.16-18; returns the final set and
the ids fired, in firing order. -/
def notify (beh : Nat → LAct) (st : List Nat) (fuel : Nat) : List Nat × List Nat :=
  notifyGo beh fuel st [] []

/-- `copy.forEach(...)` after the snapshot: every element of the copy
runs, in order, each mutating the live set. -/
def runSnapshot (beh : Nat → LAct) :
    List Nat → List Nat → List Nat → (List Nat × List Nat)
  | [], st, fired => (st, fired)
  | id :: rest, st, fired => runSnapshot beh rest (applyAct beh st id) (fired ++ [id])

/-- `notifyAndClear(args)` from listenable.ts l.19-23:
`const copy = Array.from(listeners); listeners.clear(); copy.forEach(...)`. -/
def notifyAndClear (beh : Nat → LAct) (st : List Nat) : List Nat × List Nat :=
  runSnapshot beh st [] []

theorem runSnapshot_fired (beh : Nat → LAct) (l : List Nat) :
    ∀ st fired, (runSnapshot beh l st fired).2 = fired ++ l := by
  induction l with
  | nil => intro st fired; simp [runSnapshot]
  | cons id rest ih =>
    intro st fired
    rw [runSnapshot, ih]
    simp

/-- The behavior of the counterexample run: listener 1 unsubscribes
listener 2 from inside its callback. -/
def behC7 (id : Nat) : LAct := if id = 1 then .unsub 2 else .noop

/-- Counterexample to claim C7 as stated: with listeners `[1, 2]`
subscribed at the moment of the call and listener 1 unsubscribing
listener 2 from inside its callback, `notify` fires only `[1]` — the
unsubscription DOES change which listeners fire, because `notify`
iterates the live `Set`, not a snapshot. (`notifyAndClear`, by contrast,
fires the full snapshot `[1, 2]`.) -/
theorem claim7_counterexample :
    (notify behC7 [1, 2] 4).2 = [1] ∧ (notify behC7 [1, 2] 4).2 ≠ [1, 2] ∧
    (notifyAndClear behC7 [1, 2]).2 = [1, 2] := by decide

/-- Claim C7 (amended): `notifyAndClear` fires exactly the listeners
subscribed at the moment of the call, in subscription order, against the
snapshot taken before any listener runs — whatever the listeners
subscribe or unsubscribe during their callbacks. (`notify` iterates the
live set instead, as the counterexample shows.) -/
theorem claim7_notifyAndClear_snapshot (beh : Nat → LAct) (st : List Nat) :
    (notifyAndClear beh st).2 = st := by
  rw [notifyAndClear, runSnapshot_fired]
  simp

end RacListen

namespace RacEntry

/-!
Model of one cache entry: the closure state of `create` in cache.ts
(l.47-285) — `data`, `error`, `result`, `loading`, `removed`, the three
listenables (modelled by their subscriber counts plus an event log of
notifications), the auto-dispose timer, and the promise graph the entry
interacts with. Promises are ids into `proms`; a promise is the loader's
own (`external`), one already settled at creation (`Promise.resolve` /
`Promise.reject`), or a `.then` chain of a parent with a reducer.
Settlement propagation (`flush`) plays the microtask queue: one
left-to-right pass settles every chained promise whose parent settled,
running the entry's attached `.then` reaction handlers in order. -/

/-- A JS value as far as the entry claims need: `undefined`, a number,
or a string. -/
inductive EV where
  | undef
  | intv (n : Int)
  | strv (s : String)
deriving DecidableEq, Repr

/-- Outcome of a settled promise. -/
inductive POutcome where
  | ok (v : EV)
  | err (e : EV)
deriving DecidableEq, Repr

/-- A reducer passed to `set`: add a constant to a numeric value,
replace the value, or throw. -/
inductive Reducer where
  | addConst (n : Int)
  | constv (v : EV)
  | throwErr (e : EV)
deriving DecidableEq, Repr

/-- Apply a reducer; `.error` is a thrown exception. -/
def applyReducer : Reducer → EV → Except EV EV
  | .addConst n, .intv m => .ok (.intv (m + n))
  | .addConst _, _ => .error (.strv "TypeError")
  | .constv v, _ => .ok v
  | .throwErr e, _ => .error e

/-- Where a promise's value comes from. -/
inductive PromSrc where
  | external
  | settled (o : POutcome)
  | chained (parent : Nat) (f : Reducer)
deriving DecidableEq, Repr

structure Prom where
  src : PromSrc
  state : Option POutcome
deriving DecidableEq, Repr

/-- `DisposeOption` from types.ts. -/
inductive DW where
  | never
  | unused
deriving DecidableEq, Repr

/-- Observable events, each recording how many listeners it fired. -/
inductive Ev where
  | readyNotify (n : Nat)
  | changeNotify (n : Nat)
  | changeNotifyClear (n : Nat)
  | cleanupNotify (n : Nat)
  | timerArm (delay : Nat)
  | registryDelete
deriving DecidableEq, Repr

/-- The closure state of one entry. -/
structure Ent where
  dw : DW
  data : EV
  error : EV
  result : Option Nat
  loading : Bool
  removed : Bool
  readyN : Nat
  changeN : Nat
  cleanupN : Nat
  proms : List Prom
  handlers : List Nat
  timer : Option Nat
  inReg : Bool
  log : List Ev
deriving DecidableEq, Repr

def clearTimer (s : Ent) : Ent := { s with timer := none }

def armTimer (s : Ent) (d : Nat) : Ent :=
  { s with timer := some d, log := s.log ++ [.timerArm d] }

/-- `onReady.notifyAndClear()`. -/
def readyNotifyAndClear (s : Ent) : Ent :=
  { s with readyN := 0, log := s.log ++ [.readyNotify s.readyN] }

/-- `onChange.notify()`. -/
def changeNotify (s : Ent) : Ent :=
  { s with log := s.log ++ [.changeNotify s.changeN] }

/-- `onChange.notifyAndClear()`. -/
def changeNotifyAndClear (s : Ent) : Ent :=
  { s with changeN := 0, log := s.log ++ [.changeNotifyClear s.changeN] }

/-- `onCleanup.notifyAndClear()`. -/
def cleanupNotifyAndClear (s : Ent) : Ent :=
  { s with cleanupN := 0, log := s.log ++ [.cleanupNotify s.cleanupN] }

/-- Allocate a promise; returns its id. -/
def newProm (s : Ent) (p : Prom) : Ent × Nat :=
  ({ s with proms := s.proms ++ [p] }, s.proms.length)

/-- `handleReady` from cache.ts l.137-143. -/
def handleReady (s : Ent) : Ent :=
  let s := clearTimer s
  let s := if s.dw = .unused then armTimer s 100 else s
  readyNotifyAndClear s

/-- The `.then` reaction attached by `setResult("promise", ...)`
(cache.ts l.145-158): skip if a newer `result` replaced the captured
one, otherwise store the value or the reason, drop `loading` and run
`handleReady`. -/
def reaction (s : Ent) (pid : Nat) (o : POutcome) : Ent :=
  if s.result = some pid then
    match o with
    | .ok v => handleReady { s with data := v, loading := false }
    | .err e => handleReady { s with error := e, loading := false }
  else s

def setPromState : List Prom → Nat → POutcome → List Prom
  | [], _, _ => []
  | p :: ps, 0, o => { p with state := some o } :: ps
  | p :: ps, n + 1, o => p :: setPromState ps n o

/-- Mark `pid` settled and run the entry handlers attached to it. -/
def settlePid (s : Ent) (pid : Nat) (o : POutcome) : Ent :=
  let s := { s with proms := setPromState s.proms pid o }
  (s.handlers.filter (fun h => h == pid)).foldl (fun s _ => reaction s pid o) s

/-- `.then(reducer)` semantics: a fulfilled parent feeds the reducer
(whose throw rejects the chain), a rejected parent passes through. -/
def thenOutcome (f : Reducer) : POutcome → POutcome
  | .ok v =>
    match applyReducer f v with
    | .ok w => .ok w
    | .error e => .err e
  | .err e => .err e

/-- Settle one chained promise whose parent has settled. -/
def flushStep (s : Ent) (pid : Nat) : Ent :=
  match s.proms.get? pid with
  | some p =>
    match p.state with
    | some _ => s
    | none =>
      match p.src with
      | .chained parent f =>
        match (s.proms.get? parent).bind Prom.state with
        | some o => settlePid s pid (thenOutcome f o)
        | none => s
      | _ => s
  | none => s

/-- Drain the microtask queue: since every chained promise has a larger
id than its parent, one increasing pass settles the whole chain in
microtask order. -/
def flush (s : Ent) : Ent := (List.range s.proms.length).foldl flushStep s

/-- The environment settles an external (loader) promise. -/
def settleExternal (s : Ent) (pid : Nat) (o : POutcome) : Ent :=
  flush (settlePid s pid o)

/-- The discriminant of `setResult`. -/
inductive SRArg where
  | dataA (v : EV)
  | errorA (v : EV)
  | promiseA (pid : Nat)

/-- `setResult` from cache.ts l.106-163. Note the error branch: the
source runs `result = Promise.reject(error)` BEFORE `error = value`, so
the rejected promise wraps the previous `error`, not the new one; the
model reproduces that order faithfully. -/
def setResult (s : Ent) : SRArg → Ent
  | .dataA v =>
    let s := clearTimer s
    let isReady := s.result.isSome
    let pr := newProm s ⟨.settled (.ok v), some (.ok v)⟩
    let s := pr.1
    let changed := !(decide (s.data = v))
    let s := { s with result := some pr.2, data := v }
    let s := readyNotifyAndClear s
    if isReady && changed then changeNotify s else s
  | .errorA v =>
    let s := clearTimer s
    let isReady := s.result.isSome
    let pr := newProm s ⟨.settled (.err s.error), some (.err s.error)⟩
    let s := pr.1
    let changed := !(decide (s.error = v))
    let s := { s with result := some pr.2, error := v }
    let s := readyNotifyAndClear s
    if isReady && changed then changeNotify s else s
  | .promiseA pid =>
    let s := clearTimer s
    let isReady := s.result.isSome
    let s := { s with
      result := some pid, loading := true, data := .undef,
      handlers := s.handlers ++ [pid] }
    if isReady then changeNotify s else s

/-- The argument of `cache.set`. -/
inductive SetArg where
  | val (v : EV)
  | red (f : Reducer)

/-- `cache.set` from cache.ts l.190-204: a function argument while
`loading` chains onto `resultReady().then(value)`; otherwise the reducer
applies to the current `data`, a throw routing to the error branch;
a plain value stores directly. -/
def set (s : Ent) : SetArg → Ent
  | .val v => setResult s (.dataA v)
  | .red f =>
    if s.loading then
      match s.result with
      | some pid =>
        let pr := newProm s ⟨.chained pid f, none⟩
        setResult pr.1 (.promiseA pr.2)
      | none => s
    else
      match applyReducer f s.data with
      | .ok v => setResult s (.dataA v)
      | .error e => setResult s (.errorA e)

/-- `remove` from cache.ts l.76-97: guarded by `removed`; deletes the
registry slot, clears the ready listeners, fires-and-clears cleanup.
The change listeners are NOT cleared. -/
def remove (s : Ent) : Ent :=
  if s.removed then s
  else
    let s := { s with removed := true }
    let s := if s.inReg then { s with inReg := false, log := s.log ++ [.registryDelete] } else s
    let s := { s with readyN := 0 }
    cleanupNotifyAndClear s

/-- `cache.revalidate` from cache.ts l.185-188. -/
def revalidate (s : Ent) : Ent :=
  changeNotifyAndClear (remove s)

/-- `onChange.subscribe`: the `onSubscribe` hook clears the timer first. -/
def subscribeChange (s : Ent) : Ent :=
  let s := clearTimer s
  { s with changeN := s.changeN + 1 }

/-- Unsubscribing one change listener: the `onUnsubscribe` hook
(cache.ts l.66-73) arms the dispose timer with delay 0 when the last
subscriber detaches under the "unused" policy. -/
def unsubscribeChange (s : Ent) : Ent :=
  if s.changeN = 0 then s
  else
    let s := { s with changeN := s.changeN - 1 }
    if s.dw = .unused ∧ s.changeN = 0 then armTimer (clearTimer s) 0 else s

/-- How the loader's single invocation went. -/
inductive LoaderRes where
  | sync (v : EV)
  | syncThrow (e : EV)
  | async
deriving DecidableEq, Repr

def initEnt (dw : DW) : Ent :=
  { dw := dw, data := .undef, error := .undef, result := none, loading := false,
    removed := false, readyN := 0, changeN := 0, cleanupN := 0, proms := [],
    handlers := [], timer := none, inReg := true, log := [] }

/-- `create` from cache.ts l.47-285: run the loader once; a synchronous
value seeds the data branch, a synchronous throw the error branch, a
promise the pending branch. -/
def create (dw : DW) (res : LoaderRes) : Ent :=
  match res with
  | .sync v => setResult (initEnt dw) (.dataA v)
  | .syncThrow e => setResult (initEnt dw) (.errorA e)
  | .async =>
    let pr := newProm (initEnt dw) ⟨.external, none⟩
    setResult pr.1 (.promiseA pr.2)

/-- What `get()` returns: the settled outcome of the current `result`
promise, when there is one. -/
def resultOutcome (s : Ent) : Option POutcome :=
  s.result.bind (fun pid => (s.proms.get? pid).bind Prom.state)

/-- Claim C1 exhibit (code bug): a loader that synchronously throws
`"boom"` leaves the entry with `error = "boom"`, yet the promise that
every subsequent `get()` returns is rejected with `undefined` — the
previous error value — because `setResult`'s error branch builds
`Promise.reject(error)` before executing `error = value`. The stored
error is therefore NOT re-surfaced verbatim through `get()`. -/
theorem claim1_sync_throw_stale_error :
    (create .never (.syncThrow (.strv "boom"))).error = .strv "boom" ∧
    resultOutcome (create .never (.syncThrow (.strv "boom"))) = some (.err .undef) ∧
    resultOutcome (create .never (.syncThrow (.strv "boom"))) ≠
      some (.err ((create .never (.syncThrow (.strv "boom"))).error)) := by decide

/-- Claim C4: calling `set` with a reducer while the entry is Pending
chains the reducer onto the outstanding computation: the entry stays
Pending after the call, and once the loader's promise fulfills with
`base` the entry becomes Ready with value `base + n` — the reducer was
applied to the eventually-resolved value, not to `undefined` or stale
data. In particular, resolving to `1` after `set(v => v + 1)` yields `2`. -/
theorem claim4_pending_reducer_chains (n base : Int) :
    (set (create .never .async) (.red (.addConst n))).loading = true ∧
    (settleExternal (set (create .never .async) (.red (.addConst n))) 0
      (.ok (.intv base))).data = .intv (base + n) ∧
    (settleExternal (set (create .never .async) (.red (.addConst n))) 0
      (.ok (.intv base))).loading = false ∧
    (settleExternal (set (create .never .async) (.red (.addConst 1))) 0
      (.ok (.intv 1))).data = .intv 2 :=
  ⟨rfl, rfl, rfl, rfl⟩

/-- The entry of the C5 run: created Ready with value 1, one change
listener subscribed, then removed. -/
def entC5 : Ent := remove (subscribeChange (create .never (.sync (.intv 1))))

/-- Counterexample to claim C5 as stated: `set` on a removed entry is
NOT a no-op — it overwrites the stored data (1 becomes 2) and fires the
change listener that `remove` never cleared. -/
theorem claim5_counterexample :
    entC5.removed = true ∧
    (set entC5 (.val (.intv 2))).data ≠ entC5.data ∧
    Ev.changeNotify 1 ∈ (set entC5 (.val (.intv 2))).log := by decide

/-- Claim C5 (amended): only the teardown path is guarded by the
`removed` flag — `remove`/`dispose` on a removed entry is a strict
no-op. The other mutators (`set`, `setResult`, and `revalidate`'s
notification) are unguarded and still mutate state or fire change
listeners, as the counterexample shows. -/
theorem claim5_removed_remove_noop (s : Ent) (h : s.removed = true) :
    remove s = s := by
  simp [remove, h]

/-- Witness for the amended C5 at the concrete removed entry. -/
theorem claim5_witness : entC5.removed = true ∧ remove entC5 = entC5 :=
  ⟨by decide, claim5_removed_remove_noop entC5 (by decide)⟩

/-- The entry of the C9 run: created Ready under the "unused" policy
with one change subscriber. -/
def entC9 : Ent := subscribeChange (create .unused (.sync (.intv 1)))

/-- Counterexample to claim C9 as stated: when the last change
subscriber detaches, the auto-dispose timer is armed with delay 0 —
`setTimeout(remove, 0)` in the `onUnsubscribe` hook — not with a
non-zero grace window. -/
theorem claim9_counterexample :
    (unsubscribeChange entC9).timer = some 0 ∧
    Ev.timerArm 0 ∈ (unsubscribeChange entC9).log := by decide

/-- Claim C9 (amended): under the "unused" policy the two arming sites
use different delays — the entry-became-ready site (`handleReady`) arms
a 100 ms grace window, while the last-change-subscriber-detached site
arms with delay 0 (next scheduling turn). -/
theorem claim9_two_delays (s : Ent) (h1 : s.dw = .unused) (h2 : s.changeN = 1) :
    (unsubscribeChange s).timer = some 0 ∧ (handleReady s).timer = some 100 := by
  constructor
  · simp [unsubscribeChange, h2, h1, armTimer, clearTimer]
  · simp [handleReady, h1, armTimer, clearTimer, readyNotifyAndClear]

/-- Witness for the amended C9 at the concrete entry. -/
theorem claim9_witness :
    entC9.dw = DW.unused ∧ entC9.changeN = 1 ∧
    (unsubscribeChange entC9).timer = some 0 ∧ (handleReady entC9).timer = some 100 :=
  ⟨by decide, by decide, (claim9_two_delays entC9 (by decide) (by decide)).1,
    (claim9_two_delays entC9 (by decide) (by decide)).2⟩

end RacEntry

namespace RacReg

/-!
Model of the registry (cache.ts l.30-45, 76-97, 287-302):
`allCache : WeakMap<loader, Map<string, Cache>>` becomes a two-level
association structure; loaders are opaque ids (`Nat`). Entry objects
are ids into `recs` (allocation order), each carrying its loader, its
key and its `removed` flag; object identity (`c === cache`) is id
equality. `create`'s single loader invocation is logged in
`invocations`. JS `Map` keys are unique and `set`/`delete` are modelled
by replace-or-append and filter over the association lists. -/

/-- What the model tracks of one `Cache` object. -/
structure ERec where
  loaderId : Nat
  key : String
  removed : Bool
deriving DecidableEq, Repr

/-- The global registry state. -/
structure RegSt where
  next : Nat
  recs : List ERec
  groups : List (Nat × List (String × Nat))
  invocations : List (Nat × String)
deriving DecidableEq, Repr

def initSt : RegSt := ⟨0, [], [], []⟩

/-- `Map.get`. -/
def alookup {κ ν : Type} [DecidableEq κ] (m : List (κ × ν)) (k : κ) : Option ν :=
  (m.find? (fun p => decide (p.1 = k))).map Prod.snd

/-- `Map.set`: replace the binding if the key is present (keeping its
position), otherwise append. -/
def aset {κ ν : Type} [DecidableEq κ] (m : List (κ × ν)) (k : κ) (v : ν) :
    List (κ × ν) :=
  if (m.find? (fun p => decide (p.1 = k))).isSome
  then m.map (fun p => if p.1 = k then (k, v) else p)
  else m ++ [(k, v)]

/-- `Map.delete`. -/
def aerase {κ ν : Type} [DecidableEq κ] (m : List (κ × ν)) (k : κ) :
    List (κ × ν) :=
  m.filter (fun p => decide ¬(p.1 = k))

/-- `getCache` from cache.ts l.293-302: create the loader's group
lazily. -/
def getCache (st : RegSt) (l : Nat) : RegSt :=
  match alookup st.groups l with
  | some _ => st
  | none => { st with groups := st.groups ++ [(l, [])] }

/-- `group.get(key)` through both levels. -/
def lookupEntry (st : RegSt) (l : Nat) (k : String) : Option Nat :=
  (alookup st.groups l).bind (fun m => alookup m k)

/-- `tryCreate` from cache.ts l.32-45: hit returns the existing entry;
miss runs `create` (one loader invocation) and inserts the fresh entry.
This definition covers the executions in which the loader does not
reenter the registry during `create`, so the entry is still live when
`group.set` inserts it; the reentrant interleaving — the loader
synchronously revalidating its own entry between `create` and the
insertion — is modelled separately by `tryCreateSelfRevalidate`. -/
def tryCreate (st : RegSt) (l : Nat) (k : String) : RegSt × Nat :=
  let st := getCache st l
  match lookupEntry st l k with
  | some e => (st, e)
  | none =>
    let id := st.next
    let m := (alookup st.groups l).getD []
    let st := { st with
      next := id + 1,
      recs := st.recs ++ [⟨l, k, false⟩],
      invocations := st.invocations ++ [(l, k)],
      groups := aset st.groups l (aset m k id) }
    (st, id)

/-- The registry part of `remove` (cache.ts l.76-97): guarded by
`removed`; deletes the key's binding only if it still holds this very
object (`c === cache`); drops the loader's group once empty. -/
def removeEntry (st : RegSt) (e : Nat) : RegSt :=
  match st.recs[e]? with
  | none => st
  | some r =>
    if r.removed then st
    else
      let st := { st with recs := st.recs.set e { r with removed := true } }
      match alookup st.groups r.loaderId with
      | none => st
      | some m =>
        let m2 := if alookup m r.key = some e then aerase m r.key else m
        let groups2 := if m2.isEmpty then aerase st.groups r.loaderId
                       else aset st.groups r.loaderId m2
        { st with groups := groups2 }

/-- `cache.revalidate()` (cache.ts l.185-188) runs `remove()` to
completion and only then fires `onChange.notifyAndClear()`; a change
listener reacting to the notification therefore observes this state. -/
def revalidateObservedState (st : RegSt) (e : Nat) : RegSt := removeEntry st e

/-- `tryCreate` when the loader synchronously revalidates its own entry
during `create`: cache.ts l.40-42 runs `create(loader, props, ...)` —
which invokes the loader — BEFORE `group.set(key, item)`, and the
loader context exposes `revalidate` (l.218) synchronously (reachable
e.g. through `use(effect)` whose channel emits during setup, since a
synchronous loader fires `onReady` — activating the effect — inside
`create`). The reentrant `remove()` (l.76-97) marks the entry removed,
finds the key slot empty so the `c === cache` delete misses, and drops
the loader's group from `allCache` only if the group is empty. Control
then returns to `tryCreate`, whose deferred `group.set` mutates the
`Map` object captured at l.37: into a detached map (unobservable) when
the group was dropped, but into the LIVE registry when another entry
keeps the group non-empty — inserting an already-removed entry. -/
def tryCreateSelfRevalidate (st : RegSt) (l : Nat) (k : String) : RegSt × Nat :=
  let st := getCache st l
  match lookupEntry st l k with
  | some e => (st, e)
  | none =>
    let id := st.next
    let m := (alookup st.groups l).getD []
    let st1 : RegSt := { st with
      next := id + 1,
      recs := (st.recs ++ [(⟨l, k, false⟩ : ERec)]).set id ⟨l, k, true⟩,
      invocations := st.invocations ++ [(l, k)] }
    let groups2 := if m.isEmpty then aerase st1.groups l
                   else aset st1.groups l (aset m k id)
    ({ st1 with groups := groups2 }, id)

/-- Registry-level trace operations (the non-reentrant executions: no
loader removes its own entry between `create` and the insertion). -/
inductive Op where
  | tc (l : Nat) (k : String)
  | rm (e : Nat)
deriving DecidableEq, Repr

def runOp (st : RegSt) : Op → RegSt
  | .tc l k => (tryCreate st l k).1
  | .rm e => removeEntry st e

def runOps (ops : List Op) : RegSt := ops.foldl runOp initSt

/-- Entry `e` is a live record carrying loader `l` and key `k`. -/
def recOK (recs : List ERec) (l : Nat) (k : String) (e : Nat) : Bool :=
  match recs[e]? with
  | some r => !r.removed && decide (r.loaderId = l) && decide (r.key = k)
  | none => false

/-- The registry invariant: entry ids are allocated densely; group keys
and inner keys are duplicate-free; every binding `(k, e)` of a group `l`
points at a live record carrying exactly `(l, k)`. -/
def Inv (st : RegSt) : Prop :=
  st.recs.length = st.next ∧
  (st.groups.map Prod.fst).Nodup ∧
  (∀ g ∈ st.groups, (g.2.map Prod.fst).Nodup) ∧
  (∀ g ∈ st.groups, ∀ p ∈ g.2, recOK st.recs g.1 p.1 p.2 = true)

instance invDecidable (st : RegSt) : Decidable (Inv st) := by
  unfold Inv; infer_instance

/-- Loader invocations recorded for `(l, k)`. -/
def countInv (st : RegSt) (l : Nat) (k : String) : Nat :=
  st.invocations.count (l, k)

section AssocLemmas

variable {κ ν : Type} [DecidableEq κ]

theorem alookup_cons (p : κ × ν) (m : List (κ × ν)) (k : κ) :
    alookup (p :: m) k = if p.1 = k then some p.2 else alookup m k := by
  by_cases h : p.1 = k <;> simp [alookup, List.find?, h]

theorem alookup_eq_none {m : List (κ × ν)} {k : κ} :
    alookup m k = none ↔ ∀ p ∈ m, ¬(p.1 = k) := by
  simp [alookup, List.find?_eq_none]

theorem alookup_mapReplace_self {m : List (κ × ν)} {k : κ} (v : ν)
    (hf : (m.find? (fun p => decide (p.1 = k))).isSome) :
    alookup (m.map (fun p => if p.1 = k then (k, v) else p)) k = some v := by
  induction m with
  | nil => simp [List.find?] at hf
  | cons p m ih =>
    by_cases hp : p.1 = k
    · simp [hp, alookup_cons]
    · rw [List.map_cons, if_neg hp, alookup_cons, if_neg hp]
      refine ih ?_
      simpa [List.find?, hp] using hf

theorem alookup_mapReplace_ne {m : List (κ × ν)} {k2 k : κ} (v : ν) (h : k2 ≠ k) :
    alookup (m.map (fun p => if p.1 = k then (k, v) else p)) k2 = alookup m k2 := by
  induction m with
  | nil => rfl
  | cons p m ih =>
    by_cases hp : p.1 = k
    · rw [List.map_cons, if_pos hp, alookup_cons, alookup_cons]
      have hk2 : ¬((k, v).1 = k2) := fun hc => h hc.symm
      have hp2 : ¬(p.1 = k2) := fun hc => h ((hp.symm.trans hc).symm)
      rw [if_neg hk2, if_neg hp2, ih]
    · rw [List.map_cons, if_neg hp, alookup_cons, alookup_cons, ih]

theorem alookup_append_single_self (m : List (κ × ν)) (k : κ) (v : ν)
    (hnm : ∀ p ∈ m, ¬(p.1 = k)) :
    alookup (m ++ [(k, v)]) k = some v := by
  induction m with
  | nil => simp [alookup_cons]
  | cons p m ih =>
    rw [List.cons_append, alookup_cons, if_neg (hnm p (by simp))]
    exact ih (fun q hq => hnm q (by simp [hq]))

theorem alookup_append_single_ne (m : List (κ × ν)) {k2 k : κ} (v : ν) (h : k2 ≠ k) :
    alookup (m ++ [(k, v)]) k2 = alookup m k2 := by
  induction m with
  | nil =>
    rw [List.nil_append, alookup_cons, if_neg (fun hc => h hc.symm)]
  | cons p m ih =>
    rw [List.cons_append, alookup_cons, alookup_cons, ih]

theorem alookup_aset_self (m : List (κ × ν)) (k : κ) (v : ν) :
    alookup (aset m k v) k = some v := by
  unfold aset
  by_cases hf : (m.find? (fun p => decide (p.1 = k))).isSome
  · rw [if_pos hf]
    exact alookup_mapReplace_self v hf
  · rw [if_neg hf]
    refine alookup_append_single_self m k v (fun p hp hc => hf ?_)
    have : m.find? (fun p => decide (p.1 = k)) ≠ none := by
      intro hn
      exact (List.find?_eq_none.mp hn p hp) (by simpa using hc)
    exact Option.isSome_iff_ne_none.mpr this

theorem alookup_aset_ne (m : List (κ × ν)) {k2 k : κ} (v : ν) (h : k2 ≠ k) :
    alookup (aset m k v) k2 = alookup m k2 := by
  unfold aset
  by_cases hf : (m.find? (fun p => decide (p.1 = k))).isSome
  · rw [if_pos hf]
    exact alookup_mapReplace_ne v h
  · rw [if_neg hf]
    exact alookup_append_single_ne m v h

theorem mem_aset {p : κ × ν} {m : List (κ × ν)} {k : κ} {v : ν}
    (hp : p ∈ aset m k v) : p = (k, v) ∨ (p ∈ m ∧ ¬(p.1 = k)) := by
  unfold aset at hp
  by_cases hf : (m.find? (fun q => decide (q.1 = k))).isSome
  · rw [if_pos hf] at hp
    obtain ⟨q, hq, hqe⟩ := List.mem_map.mp hp
    by_cases hqk : q.1 = k
    · left; rw [← hqe, if_pos hqk]
    · right
      rw [← hqe, if_neg hqk]
      exact ⟨hq, hqk⟩
  · rw [if_neg hf] at hp
    rcases List.mem_append.mp hp with hmem | hmem
    · right
      refine ⟨hmem, fun hc => ?_⟩
      have hne : m.find? (fun q => decide (q.1 = k)) ≠ none := by
        intro hn
        exact (List.find?_eq_none.mp hn p hmem) (by simpa using hc)
      exact hf (Option.isSome_iff_ne_none.mpr hne)
    · left; simpa using hmem

theorem mem_aerase {p : κ × ν} {m : List (κ × ν)} {k : κ}
    (hp : p ∈ aerase m k) : p ∈ m ∧ ¬(p.1 = k) := by
  have := List.mem_filter.mp hp
  exact ⟨this.1, by simpa using this.2⟩

theorem alookup_aerase_self (m : List (κ × ν)) (k : κ) :
    alookup (aerase m k) k = none := by
  refine alookup_eq_none.mpr (fun p hp => (mem_aerase hp).2)

theorem alookup_aerase_ne (m : List (κ × ν)) {k2 k : κ} (h : k2 ≠ k) :
    alookup (aerase m k) k2 = alookup m k2 := by
  induction m with
  | nil => rfl
  | cons p m ih =>
    unfold aerase
    rw [List.filter_cons]
    by_cases hp : p.1 = k
    · rw [if_neg (by simpa using hp)]
      rw [alookup_cons, if_neg (fun hc => h (hc.symm.trans hp))]
      exact ih
    · rw [if_pos (by simpa using hp), alookup_cons, alookup_cons]
      unfold aerase at ih
      rw [ih]

theorem keys_nodup_aset {m : List (κ × ν)} {k : κ} (v : ν)
    (hnd : (m.map Prod.fst).Nodup) : ((aset m k v).map Prod.fst).Nodup := by
  unfold aset
  by_cases hf : (m.find? (fun q => decide (q.1 = k))).isSome
  · rw [if_pos hf]
    have hkeys : (m.map (fun p => if p.1 = k then (k, v) else p)).map Prod.fst =
        m.map Prod.fst := by
      rw [List.map_map]
      refine List.map_congr_left (fun q _ => ?_)
      by_cases hq : q.1 = k
      · simp [hq]
      · simp [hq]
    rw [hkeys]
    exact hnd
  · rw [if_neg hf, List.map_append]
    have hkn : k ∉ m.map Prod.fst := by
      intro hc
      obtain ⟨q, hq, hqe⟩ := List.mem_map.mp hc
      have hne : m.find? (fun q => decide (q.1 = k)) ≠ none := by
        intro hn
        exact (List.find?_eq_none.mp hn q hq) (by simpa using hqe)
      exact hf (Option.isSome_iff_ne_none.mpr hne)
    refine List.Nodup.append hnd (List.nodup_singleton k) ?_
    intro x hx hx2
    simp only [List.map_cons, List.map_nil, List.mem_singleton] at hx2
    exact hkn (hx2 ▸ hx)

theorem keys_nodup_aerase {m : List (κ × ν)} (k : κ)
    (hnd : (m.map Prod.fst).Nodup) : ((aerase m k).map Prod.fst).Nodup :=
  ((List.filter_sublist m).map Prod.fst).nodup hnd

theorem alookup_eq_some_mem {m : List (κ × ν)} {k : κ} {v : ν}
    (h : alookup m k = some v) : (k, v) ∈ m := by
  induction m with
  | nil => simp [alookup] at h
  | cons p m ih =>
    rw [alookup_cons] at h
    by_cases hp : p.1 = k
    · rw [if_pos hp] at h
      obtain ⟨p1, p2⟩ := p
      obtain rfl : p2 = v := Option.some.inj h
      obtain rfl : p1 = k := hp
      exact List.mem_cons_self _ _
    · rw [if_neg hp] at h
      exact List.mem_cons_of_mem _ (ih h)

theorem alookup_of_mem_nodup {m : List (κ × ν)} {k : κ} {v : ν}
    (hmem : (k, v) ∈ m) (hnd : (m.map Prod.fst).Nodup) : alookup m k = some v := by
  induction m with
  | nil => simp at hmem
  | cons p m ih =>
    rw [List.map_cons, List.nodup_cons] at hnd
    rcases List.mem_cons.mp hmem with heq | hmem2
    · rw [alookup_cons, ← heq, if_pos rfl]
    · have hk : k ∈ m.map Prod.fst := List.mem_map.mpr ⟨(k, v), hmem2, rfl⟩
      have hpk : ¬(p.1 = k) := fun hc => hnd.1 (hc ▸ hk)
      rw [alookup_cons, if_neg hpk]
      exact ih hmem2 hnd.2

end AssocLemmas

example : lookupEntry (runOps [.tc 0 "a", .rm 0]) 0 "a" = none := by decide
example : (tryCreate (runOps [.tc 0 "a", .rm 0]) 0 "a").2 = 1 := by decide
example : Inv (runOps [.tc 0 "a", .tc 1 "b", .rm 0]) := by decide
example : countInv (runOps [.tc 0 "a", .tc 0 "a"]) 0 "a" = 1 := by decide

theorem recOK_iff {recs : List ERec} {l : Nat} {k : String} {e : Nat} :
    recOK recs l k e = true ↔
    ∃ r, recs[e]? = some r ∧ r.removed = false ∧ r.loaderId = l ∧ r.key = k := by
  unfold recOK
  cases h : recs[e]? with
  | none => simp
  | some r =>
    simp only [Bool.and_eq_true, Bool.not_eq_true', decide_eq_true_eq,
      Option.some.injEq]
    constructor
    · rintro ⟨⟨h1, h2⟩, h3⟩
      exact ⟨r, rfl, h1, h2, h3⟩
    · rintro ⟨r2, hr2, h1, h2, h3⟩
      subst hr2
      exact ⟨⟨h1, h2⟩, h3⟩

theorem recOK_lt {recs : List ERec} {l : Nat} {k : String} {e : Nat}
    (h : recOK recs l k e = true) : e < recs.length := by
  obtain ⟨r, hr, -⟩ := recOK_iff.mp h
  by_contra hc
  rw [List.getElem?_eq_none (Nat.le_of_not_lt hc)] at hr
  exact Option.noConfusion hr

theorem recOK_append {recs : List ERec} (rs : List ERec) {l : Nat} {k : String}
    {e : Nat} (h : recOK recs l k e = true) : recOK (recs ++ rs) l k e = true := by
  obtain ⟨r, hr, h1, h2, h3⟩ := recOK_iff.mp h
  refine recOK_iff.mpr ⟨r, ?_, h1, h2, h3⟩
  rw [List.getElem?_append_left (recOK_lt h)]
  exact hr

theorem recOK_set_ne {recs : List ERec} {i : Nat} (r2 : ERec) {l : Nat}
    {k : String} {e : Nat} (hne : i ≠ e)
    (h : recOK recs l k e = true) : recOK (recs.set i r2) l k e = true := by
  obtain ⟨r, hr, h1, h2, h3⟩ := recOK_iff.mp h
  refine recOK_iff.mpr ⟨r, ?_, h1, h2, h3⟩
  rw [List.getElem?_set_ne hne]
  exact hr

theorem getCache_recs (st : RegSt) (l : Nat) : (getCache st l).recs = st.recs := by
  unfold getCache
  cases alookup st.groups l <;> rfl

theorem getCache_next (st : RegSt) (l : Nat) : (getCache st l).next = st.next := by
  unfold getCache
  cases alookup st.groups l <;> rfl

theorem getCache_invocations (st : RegSt) (l : Nat) :
    (getCache st l).invocations = st.invocations := by
  unfold getCache
  cases alookup st.groups l <;> rfl

theorem getCache_group_some (st : RegSt) (l : Nat) :
    ∃ m, alookup (getCache st l).groups l = some m := by
  unfold getCache
  cases hg : alookup st.groups l with
  | some m => exact ⟨m, hg⟩
  | none =>
    exact ⟨[], alookup_append_single_self st.groups l []
      (fun p hp => alookup_eq_none.mp hg p hp)⟩

theorem lookupEntry_getCache (st : RegSt) (l : Nat) (k : String) :
    lookupEntry (getCache st l) l k = lookupEntry st l k := by
  unfold getCache
  cases hg : alookup st.groups l with
  | some m => rfl
  | none =>
    show (alookup (st.groups ++ [(l, [])]) l).bind (fun m => alookup m k) =
      (alookup st.groups l).bind (fun m => alookup m k)
    have h2 : alookup (st.groups ++ [(l, [])]) l = some [] :=
      alookup_append_single_self st.groups l []
        (fun p hp => alookup_eq_none.mp hg p hp)
    rw [h2, hg]
    rfl

theorem getCache_inv {st : RegSt} (l : Nat) (h : Inv st) : Inv (getCache st l) := by
  obtain ⟨hA, hB, hC, hD⟩ := h
  unfold getCache
  cases hg : alookup st.groups l with
  | some m => exact ⟨hA, hB, hC, hD⟩
  | none =>
    refine ⟨hA, ?_, ?_, ?_⟩
    · rw [List.map_append]
      refine List.Nodup.append hB (List.nodup_singleton l) ?_
      intro x hx hx2
      simp only [List.map_cons, List.map_nil, List.mem_singleton] at hx2
      subst hx2
      obtain ⟨g, hgmem, hge⟩ := List.mem_map.mp hx
      exact (alookup_eq_none.mp hg g hgmem) hge
    · intro g hgmem
      rcases List.mem_append.mp hgmem with hmem | hmem
      · exact hC g hmem
      · rw [List.mem_singleton] at hmem
        subst hmem
        exact List.nodup_nil
    · intro g hgmem p hpmem
      rcases List.mem_append.mp hgmem with hmem | hmem
      · exact hD g hmem p hpmem
      · rw [List.mem_singleton] at hmem
        subst hmem
        simp at hpmem

theorem recOK_at_e {recs : List ERec} {g1 : Nat} {p1 : String} {e : Nat} {r : ERec}
    (hre : recs[e]? = some r) (h : recOK recs g1 p1 e = true) :
    r.loaderId = g1 ∧ r.key = p1 ∧ r.removed = false := by
  obtain ⟨rr, hrr, h1, h2, h3⟩ := recOK_iff.mp h
  rw [hre] at hrr
  obtain rfl : r = rr := Option.some.inj hrr
  exact ⟨h2, h3, h1⟩

theorem tryCreate_inv {st : RegSt} (l : Nat) (k : String) (h : Inv st) :
    Inv (tryCreate st l k).1 := by
  have h1 := getCache_inv l h
  obtain ⟨hA, hB, hC, hD⟩ := h1
  simp only [tryCreate]
  cases hl : lookupEntry (getCache st l) l k with
  | some e => exact ⟨hA, hB, hC, hD⟩
  | none =>
    obtain ⟨m, hm⟩ := getCache_group_some st l
    rw [hm]
    simp only [Option.getD_some]
    have hmmem : (l, m) ∈ (getCache st l).groups := alookup_eq_some_mem hm
    refine ⟨?_, ?_, ?_, ?_⟩
    · simp [hA]
    · exact keys_nodup_aset _ hB
    · intro g hg
      rcases mem_aset hg with heq | ⟨hmem, -⟩
      · subst heq
        exact keys_nodup_aset _ (hC (l, m) hmmem)
      · exact hC g hmem
    · intro g hg p hp
      rcases mem_aset hg with heq | ⟨hmem, -⟩
      · subst heq
        rcases mem_aset hp with heq2 | ⟨hpmem, -⟩
        · subst heq2
          refine recOK_iff.mpr ⟨⟨l, k, false⟩, ?_, rfl, rfl, rfl⟩
          rw [← hA]
          exact List.getElem?_concat_length _ _
        · exact recOK_append _ (hD (l, m) hmmem p hpmem)
      · exact recOK_append _ (hD g hmem p hp)

theorem removeEntry_inv {st : RegSt} (e : Nat) (h : Inv st) :
    Inv (removeEntry st e) := by
  obtain ⟨hA, hB, hC, hD⟩ := h
  simp only [removeEntry]
  cases hre : st.recs[e]? with
  | none => exact ⟨hA, hB, hC, hD⟩
  | some r =>
    dsimp only
    by_cases hrm : r.removed
    · rw [if_pos hrm]
      exact ⟨hA, hB, hC, hD⟩
    · rw [if_neg hrm]
      have hA2 : (st.recs.set e { r with removed := true }).length = st.next := by
        rw [List.length_set]; exact hA
      cases hgl : alookup st.groups r.loaderId with
      | none =>
        dsimp only
        refine ⟨hA2, hB, hC, ?_⟩
        intro g hg p hp
        have hne : e ≠ p.2 := by
          intro hc
          obtain ⟨he1, -, -⟩ := recOK_at_e (hc ▸ hre) (hD g hg p hp)
          exact alookup_eq_none.mp hgl g hg he1.symm
        exact recOK_set_ne _ hne (hD g hg p hp)
      | some m =>
        dsimp only
        have hmmem : (r.loaderId, m) ∈ st.groups := alookup_eq_some_mem hgl
        by_cases hme : alookup m r.key = some e
        · rw [if_pos hme]
          by_cases hempty : (aerase m r.key).isEmpty
          · rw [if_pos hempty]
            refine ⟨hA2, keys_nodup_aerase _ hB, ?_, ?_⟩
            · intro g hg
              exact hC g (mem_aerase hg).1
            · intro g hg p hp
              obtain ⟨hgmem, hgne⟩ := mem_aerase hg
              have hne : e ≠ p.2 := by
                intro hc
                obtain ⟨he1, -, -⟩ := recOK_at_e (hc ▸ hre) (hD g hgmem p hp)
                exact hgne (he1 ▸ rfl)
              exact recOK_set_ne _ hne (hD g hgmem p hp)
          · rw [if_neg hempty]
            refine ⟨hA2, keys_nodup_aset _ hB, ?_, ?_⟩
            · intro g hg
              rcases mem_aset hg with heq | ⟨hmem, -⟩
              · subst heq
                exact keys_nodup_aerase _ (hC (r.loaderId, m) hmmem)
              · exact hC g hmem
            · intro g hg p hp
              rcases mem_aset hg with heq | ⟨hmem, hgne⟩
              · subst heq
                obtain ⟨hpm, hpne⟩ := mem_aerase hp
                have hne : e ≠ p.2 := by
                  intro hc
                  obtain ⟨-, he2, -⟩ :=
                    recOK_at_e (hc ▸ hre) (hD (r.loaderId, m) hmmem p hpm)
                  exact hpne (he2 ▸ rfl)
                exact recOK_set_ne _ hne (hD (r.loaderId, m) hmmem p hpm)
              · have hne : e ≠ p.2 := by
                  intro hc
                  obtain ⟨he1, -, -⟩ := recOK_at_e (hc ▸ hre) (hD g hmem p hp)
                  exact hgne (he1 ▸ rfl)
                exact recOK_set_ne _ hne (hD g hmem p hp)
        · rw [if_neg hme]
          by_cases hempty : m.isEmpty
          · rw [if_pos hempty]
            refine ⟨hA2, keys_nodup_aerase _ hB, ?_, ?_⟩
            · intro g hg
              exact hC g (mem_aerase hg).1
            · intro g hg p hp
              obtain ⟨hgmem, hgne⟩ := mem_aerase hg
              have hne : e ≠ p.2 := by
                intro hc
                obtain ⟨he1, -, -⟩ := recOK_at_e (hc ▸ hre) (hD g hgmem p hp)
                exact hgne (he1 ▸ rfl)
              exact recOK_set_ne _ hne (hD g hgmem p hp)
          · rw [if_neg hempty]
            refine ⟨hA2, keys_nodup_aset _ hB, ?_, ?_⟩
            · intro g hg
              rcases mem_aset hg with heq | ⟨hmem, -⟩
              · subst heq
                exact hC (r.loaderId, m) hmmem
              · exact hC g hmem
            · intro g hg p hp
              rcases mem_aset hg with heq | ⟨hmem, hgne⟩
              · subst heq
                have hne : e ≠ p.2 := by
                  intro hc
                  obtain ⟨-, he2, -⟩ :=
                    recOK_at_e (hc ▸ hre) (hD (r.loaderId, m) hmmem p hp)
                  refine hme ?_
                  rw [he2, hc]
                  exact alookup_of_mem_nodup hp (hC (r.loaderId, m) hmmem)
                exact recOK_set_ne _ hne (hD (r.loaderId, m) hmmem p hp)
              · have hne : e ≠ p.2 := by
                  intro hc
                  obtain ⟨he1, -, -⟩ := recOK_at_e (hc ▸ hre) (hD g hmem p hp)
                  exact hgne (he1 ▸ rfl)
                exact recOK_set_ne _ hne (hD g hmem p hp)

theorem inv_initSt : Inv initSt := by decide

theorem runOp_inv {st : RegSt} (h : Inv st) (op : Op) : Inv (runOp st op) := by
  cases op with
  | tc l k => exact tryCreate_inv l k h
  | rm e => exact removeEntry_inv e h

theorem foldl_inv (ops : List Op) : ∀ st, Inv st → Inv (ops.foldl runOp st) := by
  induction ops with
  | nil => intro st h; exact h
  | cons op ops ih =>
    intro st h
    exact ih _ (runOp_inv h op)

theorem inv_runOps (ops : List Op) : Inv (runOps ops) :=
  foldl_inv ops initSt inv_initSt

theorem lookupEntry_decomp {st : RegSt} {l : Nat} {k : String} {e : Nat}
    (hl : lookupEntry st l k = some e) :
    ∃ m, alookup st.groups l = some m ∧ alookup m k = some e := by
  unfold lookupEntry at hl
  cases hg : alookup st.groups l with
  | none => rw [hg] at hl; exact Option.noConfusion hl
  | some m =>
    rw [hg] at hl
    simp only [Option.some_bind] at hl
    exact ⟨m, rfl, hl⟩

theorem lookup_recOK {st : RegSt} (h : Inv st) {l : Nat} {k : String} {e : Nat}
    (hl : lookupEntry st l k = some e) :
    ∃ r, st.recs[e]? = some r ∧ r.removed = false ∧ r.loaderId = l ∧ r.key = k := by
  obtain ⟨-, -, -, hD⟩ := h
  obtain ⟨m, hg, hk⟩ := lookupEntry_decomp hl
  exact recOK_iff.mp
    (hD (l, m) (alookup_eq_some_mem hg) (k, e) (alookup_eq_some_mem hk))

theorem tryCreate_hit_spec {st : RegSt} {l : Nat} {k : String} {e : Nat}
    (hhit : lookupEntry st l k = some e) :
    tryCreate st l k = (getCache st l, e) := by
  have hhit2 : lookupEntry (getCache st l) l k = some e := by
    rw [lookupEntry_getCache]; exact hhit
  simp only [tryCreate]
  rw [hhit2]

theorem tryCreate_miss_spec {st : RegSt} {l : Nat} {k : String}
    (hmiss : lookupEntry st l k = none) :
    (tryCreate st l k).2 = st.next ∧
    (tryCreate st l k).1.recs = st.recs ++ [⟨l, k, false⟩] ∧
    (tryCreate st l k).1.next = st.next + 1 ∧
    (tryCreate st l k).1.invocations = st.invocations ++ [(l, k)] ∧
    lookupEntry (tryCreate st l k).1 l k = some st.next := by
  have hmiss2 : lookupEntry (getCache st l) l k = none := by
    rw [lookupEntry_getCache]; exact hmiss
  obtain ⟨m, hm⟩ := getCache_group_some st l
  simp only [tryCreate]
  rw [hmiss2]
  dsimp only
  rw [hm]
  dsimp only [Option.getD_some]
  refine ⟨getCache_next st l, ?_, ?_, ?_, ?_⟩
  · rw [getCache_recs]
  · rw [getCache_next]
  · rw [getCache_invocations]
  · show (alookup (aset (getCache st l).groups l
      (aset m k (getCache st l).next)) l).bind (fun m2 => alookup m2 k) =
      some st.next
    rw [alookup_aset_self]
    simp only [Option.some_bind]
    rw [alookup_aset_self, getCache_next]

theorem removeEntry_next (st : RegSt) (e : Nat) :
    (removeEntry st e).next = st.next := by
  simp only [removeEntry]
  split
  · rfl
  · split
    · rfl
    · split
      · rfl
      · rfl

theorem removeEntry_recs_len (st : RegSt) (e : Nat) :
    (removeEntry st e).recs.length = st.recs.length := by
  simp only [removeEntry]
  split
  · rfl
  · split
    · rfl
    · split
      · simp [List.length_set]
      · simp [List.length_set]

theorem removeEntry_lookup_self {st : RegSt} {l : Nat} {k : String} {e : Nat}
    (hinv : Inv st) (hl : lookupEntry st l k = some e) :
    lookupEntry (removeEntry st e) l k = none := by
  obtain ⟨r, hre, hrm, hrl, hrk⟩ := lookup_recOK hinv hl
  obtain ⟨m, hg, hk⟩ := lookupEntry_decomp hl
  simp only [removeEntry]
  rw [hre]
  dsimp only
  rw [if_neg (by rw [hrm]; exact Bool.false_ne_true)]
  rw [hrl, hg]
  dsimp only
  rw [hrk, if_pos hk]
  unfold lookupEntry
  dsimp only
  by_cases hempty : (aerase m k).isEmpty
  · rw [if_pos hempty]
    rw [alookup_aerase_self]
    rfl
  · rw [if_neg hempty]
    rw [alookup_aset_self]
    simp only [Option.some_bind]
    exact alookup_aerase_self m k

/-- The registry after: a normal entry for (loader 0, key "a") keeping
the group non-empty, then a creation for (loader 0, key "b") whose
loader synchronously revalidates its own entry during `create`. -/
def c2state : RegSt :=
  (tryCreateSelfRevalidate (runOps [.tc 0 "a"]) 0 "b").1

/-- Counterexample to claim C2 as stated: after the reentrant run, the
registry stores entry 1 under (loader 0, key "b") although its
`removed` flag is true — `create` ran the reentrant `remove()` before
`tryCreate`'s `group.set` inserted the entry, and the non-empty group
kept the insertion observable — and a subsequent request for the same
key hits and hands out that very removed entry, not a fresh one. -/
theorem claim2_counterexample :
    lookupEntry c2state 0 "b" = some 1 ∧
    c2state.recs[1]? = some ⟨0, "b", true⟩ ∧
    (tryCreate c2state 0 "b").2 = 1 := by decide

/-- Claim C2 (amended): in every execution in which no loader removes
its own entry between `create` and the insertion (no reentrant
`revalidate`/`dispose` from inside the loader, the interleaving the
counterexample exhibits), the invariant holds at every reachable
registry state: an entry reachable under `(loader, key)` has
`removed = false`, and an entry whose `removed` flag is true is never
handed out again by `tryCreate` — a request after removal returns a
different (fresh or live) entry object. -/
theorem claim2_registry_invariant (ops : List Op) :
    (∀ l k e, lookupEntry (runOps ops) l k = some e →
      ∃ r, (runOps ops).recs[e]? = some r ∧ r.removed = false ∧
        r.loaderId = l ∧ r.key = k) ∧
    (∀ l k e r, (runOps ops).recs[e]? = some r → r.removed = true →
      (tryCreate (runOps ops) l k).2 ≠ e) := by
  have hinv := inv_runOps ops
  have hA := hinv.1
  constructor
  · intro l k e hl
    exact lookup_recOK hinv hl
  · intro l k e r hre hrem
    cases hl : lookupEntry (runOps ops) l k with
    | some e2 =>
      rw [tryCreate_hit_spec hl]
      dsimp only
      intro hc
      subst hc
      obtain ⟨r2, hre2, hrm2, -, -⟩ := lookup_recOK hinv hl
      rw [hre] at hre2
      obtain rfl : r = r2 := Option.some.inj hre2
      rw [hrem] at hrm2
      exact Bool.noConfusion hrm2
    | none =>
      obtain ⟨hret, -, -, -, -⟩ := tryCreate_miss_spec hl
      rw [hret]
      intro hc
      subst hc
      rw [List.getElem?_eq_none (Nat.le_of_eq hA)] at hre
      exact Option.noConfusion hre

/-- Witness for C2 on the concrete trace create-remove-recreate: entry 0
is removed, and re-requesting its key yields entry 1, not entry 0. -/
theorem claim2_witness :
    (tryCreate (runOps [.tc 0 "a", .rm 0]) 0 "a").2 ≠ 0 :=
  (claim2_registry_invariant [.tc 0 "a", .rm 0]).2 0 "a" 0
    ⟨0, "a", true⟩ (by decide) (by decide)

/-- Claim C3: from a state where `(loader, key)` misses, the first
`tryCreate` invokes the loader exactly once; a second `tryCreate` for
the same key — before any removal, in particular while the computation
is still pending — returns the very same entry and the very same state,
invoking the loader zero further times. -/
theorem claim3_single_invocation (st : RegSt) (l : Nat) (k : String)
    (hmiss : lookupEntry st l k = none) :
    (tryCreate (tryCreate st l k).1 l k).2 = (tryCreate st l k).2 ∧
    (tryCreate (tryCreate st l k).1 l k).1 = (tryCreate st l k).1 ∧
    countInv (tryCreate st l k).1 l k = countInv st l k + 1 ∧
    countInv (tryCreate (tryCreate st l k).1 l k).1 l k = countInv st l k + 1 := by
  obtain ⟨hret, hrecs, hnext, hinvoc, hlook⟩ := tryCreate_miss_spec hmiss
  have hhit := tryCreate_hit_spec hlook
  have hgc : getCache (tryCreate st l k).1 l = (tryCreate st l k).1 := by
    unfold getCache
    cases hx : alookup (tryCreate st l k).1.groups l with
    | some m => rfl
    | none =>
      exfalso
      obtain ⟨m, hm, -⟩ := lookupEntry_decomp hlook
      rw [hx] at hm
      exact Option.noConfusion hm
  have hcount : countInv (tryCreate st l k).1 l k = countInv st l k + 1 := by
    unfold countInv
    rw [hinvoc, List.count_append]
    simp
  refine ⟨?_, ?_, hcount, ?_⟩
  · rw [hhit]
    dsimp only
    rw [hret]
  · rw [hhit]
    dsimp only
    exact hgc
  · rw [hhit]
    dsimp only
    rw [hgc]
    exact hcount

/-- Witness for C3 from the empty registry. -/
theorem claim3_witness :
    (tryCreate (tryCreate initSt 0 "a").1 0 "a").2 = (tryCreate initSt 0 "a").2 ∧
    countInv (tryCreate initSt 0 "a").1 0 "a" = countInv initSt 0 "a" + 1 := by
  have h := claim3_single_invocation initSt 0 "a" (by decide)
  exact ⟨h.1, h.2.2.1⟩

/-- Claim C8: `revalidate()` removes the entry from the registry
strictly before firing its change notifications: in the state its change
listeners observe, the `(loader, key)` slot is a cache miss, and
re-requesting the key produces a fresh live entry object distinct from
the entry being torn down. -/
theorem claim8_remove_before_notify (st : RegSt) (l : Nat) (k : String) (e : Nat)
    (hinv : Inv st) (hl : lookupEntry st l k = some e) :
    lookupEntry (revalidateObservedState st e) l k = none ∧
    (tryCreate (revalidateObservedState st e) l k).2 ≠ e ∧
    (tryCreate (revalidateObservedState st e) l k).1.recs[
      (tryCreate (revalidateObservedState st e) l k).2]? = some ⟨l, k, false⟩ := by
  have hA := hinv.1
  have hmiss : lookupEntry (revalidateObservedState st e) l k = none :=
    removeEntry_lookup_self hinv hl
  obtain ⟨hret, hrecs, -, -, -⟩ := tryCreate_miss_spec hmiss
  obtain ⟨r, hre, -, -, -⟩ := lookup_recOK hinv hl
  have helt : e < st.next := by
    rw [← hA]
    by_contra hc
    rw [List.getElem?_eq_none (Nat.le_of_not_lt hc)] at hre
    exact Option.noConfusion hre
  refine ⟨hmiss, ?_, ?_⟩
  · rw [hret, revalidateObservedState, removeEntry_next]
    exact fun hc => absurd (hc ▸ helt) (lt_irrefl e)
  · rw [hret, hrecs]
    have hlen : (revalidateObservedState st e).recs.length =
        (revalidateObservedState st e).next := by
      rw [revalidateObservedState, removeEntry_recs_len, removeEntry_next, hA]
    rw [← hlen]
    exact List.getElem?_concat_length _ _

/-- Witness for C8 on the one-entry registry. -/
theorem claim8_witness :
    lookupEntry (revalidateObservedState (runOps [.tc 0 "a"]) 0) 0 "a" = none ∧
    (tryCreate (revalidateObservedState (runOps [.tc 0 "a"]) 0) 0 "a").2 ≠ 0 := by
  have h := claim8_remove_before_notify (runOps [.tc 0 "a"]) 0 "a" 0
    (inv_runOps [.tc 0 "a"]) (by decide)
  exact ⟨h.1, h.2.1⟩

end RacReg
